import Mathlib

/-!
# The startup runner (`startup_runners/startup_runner.c`)

A shallow embedding of the C program

```c
int
main(void)
{
    double start_time = -1;
    start_time = krun_clock_gettime_monotonic();
    fprintf(stdout, "%f ] }\n", start_time);
    return (EXIT_SUCCESS);
}
```

The program is embedded as a state-passing function over an explicit process
state (the two output streams and the sequence of observable events).  A C
`double` is an IEEE 754 binary64 datum given by its three bit fields, and the
`%f` conversion is computed exactly on the rational value of the datum.
-/

namespace StartupRunner

/-! ## The C `double` type -/

/-- An IEEE 754 binary64 datum: sign bit, 11-bit biased exponent, 52-bit fraction. -/
structure Double where
  sign : Bool
  expo : Fin 2048
  frac : Fin 4503599627370496
  deriving DecidableEq

namespace Double

/-- Not-a-number: all exponent bits set and a non-zero fraction. -/
def isNaN (d : Double) : Bool := d.expo.val == 2047 && d.frac.val != 0

/-- An infinity: all exponent bits set and a zero fraction. -/
def isInf (d : Double) : Bool := d.expo.val == 2047 && d.frac.val == 0

/-- A finite number (zero, subnormal or normal). -/
def isFinite (d : Double) : Bool := decide (d.expo.val < 2047)

/-- Integer significand of a finite datum: the hidden bit is set exactly for normal numbers. -/
def mant (d : Double) : Nat :=
  if d.expo.val = 0 then d.frac.val else 4503599627370496 + d.frac.val

/-- Biased binary exponent of the significand's unit; subnormals share the exponent of the
smallest normal numbers.  The magnitude of a finite datum is `mant * 2 ^ (bexp - 1075)`. -/
def bexp (d : Double) : Nat := if d.expo.val = 0 then 1 else d.expo.val

/-- Magnitude of a finite datum as a rational number. -/
def absRat (d : Double) : ℚ := (d.mant : ℚ) * 2 ^ d.bexp / 2 ^ 1075

/-- Value of a finite datum as a rational number (both zeros map to `0`). -/
def toRat (d : Double) : ℚ := if d.sign then -d.absRat else d.absRat

/-- The C comparison `a <= b` on doubles: false as soon as one operand is a NaN, infinities
are the extreme elements, and the two zeros compare equal. -/
def le (a b : Double) : Prop :=
  a.isNaN = false ∧ b.isNaN = false ∧
    ((a.isInf = true ∧ a.sign = true) ∨ (b.isInf = true ∧ b.sign = false) ∨
      (a.isFinite = true ∧ b.isFinite = true ∧ a.toRat ≤ b.toRat))

/-- The C comparison `a < 0` on doubles: false for NaNs and for both zeros. -/
def isNegative (a : Double) : Prop :=
  a.isNaN = false ∧ a.sign = true ∧ (a.isInf = true ∨ 0 < a.mant)

/-- Positive zero. -/
def zero : Double := ⟨false, 0, 0⟩

/-- The value `-1`, which is what the initialiser `double start_time = -1` converts to. -/
def negOne : Double := ⟨true, 1023, 0⟩

/-- A quiet NaN with the sign bit clear. -/
def qnan : Double := ⟨false, 2047, 2251799813685248⟩

/-- Positive infinity. -/
def posInf : Double := ⟨false, 2047, 0⟩

/-- Negative infinity. -/
def negInf : Double := ⟨true, 2047, 0⟩

/-- The value `2^-7 = 0.0078125`, which lies halfway between two six-digit decimals. -/
def d0_0078125 : Double := ⟨false, 1016, 0⟩

/-- The double just below `d0_000123`. -/
def d0_000123_pred : Double := ⟨false, 1010, 34299414762053⟩

/-- The double nearest to the decimal `0.000123` (bit pattern `0x3F201F31F46ED246`). -/
def d0_000123 : Double := ⟨false, 1010, 34299414762054⟩

end Double

/-! ## The `%f` conversion -/

/-- Round the non-negative quotient `num / den` to the nearest integer, ties to even
(the default IEEE rounding direction). -/
def roundHalfEven (num den : Nat) : Nat :=
  let q := num / den
  let r := num % den
  if 2 * r < den then q
  else if den < 2 * r then q + 1
  else if q % 2 = 0 then q else q + 1

/-- The magnitude of a finite datum in units of `10^-6`, correctly rounded. -/
def Double.micros (d : Double) : Nat :=
  roundHalfEven (d.mant * 2 ^ d.bexp * 1000000) (2 ^ 1075)

/-- Decimal digits of `n`, most significant first, accumulated in front of `acc`. -/
def decDigitsAux : Nat → Nat → List Char → List Char
  | 0, _, acc => acc
  | fuel + 1, n, acc =>
    if n / 10 = 0 then Nat.digitChar (n % 10) :: acc
    else decDigitsAux fuel (n / 10) (Nat.digitChar (n % 10) :: acc)

/-- Decimal digits of `n`, most significant first, without leading zeros (`0` is `"0"`). -/
def decDigits (n : Nat) : List Char := decDigitsAux (n + 1) n []

/-- The six fractional digits of a `%f` conversion: `f` zero-padded to width six. -/
def fracDigits (f : Nat) : List Char :=
  [Nat.digitChar (f / 100000 % 10), Nat.digitChar (f / 10000 % 10),
   Nat.digitChar (f / 1000 % 10), Nat.digitChar (f / 100 % 10),
   Nat.digitChar (f / 10 % 10), Nat.digitChar (f % 10)]

/-- Modelled from the spec: the `%f` conversion of the C library's `fprintf`, which is not part
of the repository sources ("six-digit fixed-point precision (conventional `%f` default)").
A finite value is written as `[-]ddd.dddddd`, correctly rounded to six fractional digits; an
infinity is written `[-]inf` and a NaN `[-]nan`, as ISO C prescribes for the `f` conversion. -/
def fmt_f (d : Double) : List Char :=
  (if d.sign then ['-'] else []) ++
    (if d.isNaN then ['n', 'a', 'n']
     else if d.isInf then ['i', 'n', 'f']
     else decDigits (d.micros / 1000000) ++ '.' :: fracDigits (d.micros % 1000000))

/-- Modelled from the spec: the part of the C library's format interpreter the program uses.
Ordinary characters are copied, `%f` consumes one `double` argument, `%%` writes a percent
sign. -/
def formatChars : List Char → List Double → List Char
  | [], _ => []
  | '%' :: 'f' :: rest, a :: args => fmt_f a ++ formatChars rest args
  | '%' :: '%' :: rest, args => '%' :: formatChars rest args
  | c :: rest, args => c :: formatChars rest args

/-! ## The process -/

/-- The two standard output streams. -/
inductive Stream where
  | stdout
  | stderr
  deriving DecidableEq

/-- Observable actions of the process, in program order. -/
inductive Event where
  | clock (value : Double)
  | write (stream : Stream) (text : List Char)
  deriving DecidableEq

/-- What the process is started with: its argument vector, its environment variables, and the
monotonic clock, given by the value its `n`-th reading returns. -/
structure Env where
  argv : List String
  environ : List String
  clock : Nat → Double

/-- The mutable process state: number of clock readings made so far, the contents of the two
output streams, and the events so far. -/
structure State where
  clockCalls : Nat
  out : List Char
  err : List Char
  trace : List Event

/-- The local variables of `main`. -/
structure Locals where
  start_time : Double

/-- The state at process start. -/
def State.init : State := ⟨0, [], [], []⟩

/-- The exit status `EXIT_SUCCESS` of `<stdlib.h>`. -/
def EXIT_SUCCESS : Int := 0

/-- Modelled from the spec: `krun_clock_gettime_monotonic` of `libkruntime`, whose definition
is not part of the sources at hand: it is called "with no arguments" and returns "a
floating-point seconds value".  The values it returns are a parameter of the environment. -/
def krun_clock_gettime_monotonic (env : Env) (s : State) : Double × State :=
  (env.clock s.clockCalls,
   { s with clockCalls := s.clockCalls + 1,
            trace := s.trace ++ [Event.clock (env.clock s.clockCalls)] })

/-- The library call `fprintf(stream, fmt, args...)`: the formatted text is appended to the
stream. -/
def fprintf (stream : Stream) (fmt : String) (args : List Double) (s : State) : State :=
  let text := formatChars fmt.data args
  match stream with
  | Stream.stdout => { s with out := s.out ++ text, trace := s.trace ++ [Event.write stream text] }
  | Stream.stderr => { s with err := s.err ++ text, trace := s.trace ++ [Event.write stream text] }

/-- The function `main` of `startup_runner.c`. -/
def main (env : Env) (s : State) : Int × State :=
  let l : Locals := ⟨Double.negOne⟩
  let (r, s) := krun_clock_gettime_monotonic env s
  let l : Locals := { l with start_time := r }
  let s := fprintf Stream.stdout "%f ] \x7d\n" [l.start_time] s
  (EXIT_SUCCESS, s)

/-- The body of `main` with the initialiser of `start_time` replaced by `init`. -/
def mainWith (init : Double) (env : Env) (s : State) : Int × State :=
  let l : Locals := ⟨init⟩
  let (r, s) := krun_clock_gettime_monotonic env s
  let l : Locals := { l with start_time := r }
  let s := fprintf Stream.stdout "%f ] \x7d\n" [l.start_time] s
  (EXIT_SUCCESS, s)

/-- One execution of the program from a fresh process state. -/
def run (env : Env) : Int × State := main env State.init

/-- One execution of the variant of the program whose initialiser is `init`. -/
def runWith (init : Double) (env : Env) : Int × State := mainWith init env State.init

/-- The text the program appends after the timestamp. -/
def suffix : List Char := [' ', ']', ' ', '}', '\n']

/-! ## Reading the output line back -/

/-- What a reader of the output line finds in place of the timestamp: a decimal number or an
infinity. -/
inductive Printed where
  | negInf
  | num (q : ℚ)
  | posInf
  deriving DecidableEq

/-- Order of printed values: the infinities are the extreme elements. -/
def Printed.le : Printed → Printed → Prop
  | Printed.negInf, _ => True
  | _, Printed.posInf => True
  | Printed.num p, Printed.num q => p ≤ q
  | _, _ => False

/-- Negation of a printed value. -/
def Printed.neg : Printed → Printed
  | Printed.negInf => Printed.posInf
  | Printed.num q => Printed.num (-q)
  | Printed.posInf => Printed.negInf

/-- Value of a decimal digit character. -/
def digitVal (c : Char) : Nat := c.toNat - 48

/-- Value of a string of decimal digits. -/
def readNat (cs : List Char) : Nat := cs.foldl (fun a c => 10 * a + digitVal c) 0

/-- Read an unsigned `ddd.ddd` or `inf`. -/
def readUnsigned (cs : List Char) : Option Printed :=
  if cs = ['i', 'n', 'f'] then some Printed.posInf
  else
    let ip := cs.takeWhile Char.isDigit
    match cs.dropWhile Char.isDigit with
    | '.' :: fp =>
      if ip ≠ [] ∧ fp ≠ [] ∧ fp.all Char.isDigit = true then
        some (Printed.num ((readNat ip : ℚ) + (readNat fp : ℚ) / 10 ^ fp.length))
      else none
    | _ => none

/-- Read an optionally signed value. -/
def readSigned : List Char → Option Printed
  | '-' :: cs => (readUnsigned cs).map Printed.neg
  | cs => readUnsigned cs

/-- Read the value on an output line `<timestamp> ] }\n`. -/
def readLine (s : List Char) : Option Printed :=
  if s.drop (s.length - suffix.length) = suffix then
    readSigned (s.take (s.length - suffix.length))
  else none

/-- The value a datum other than a NaN is printed as: an infinity, or its magnitude rounded
to a whole number of units of `10^-6`, with the sign of the datum. -/
def Double.shown (d : Double) : Printed :=
  if d.isInf then (if d.sign then Printed.negInf else Printed.posInf)
  else Printed.num (if d.sign then -((d.micros : ℚ) / 1000000) else (d.micros : ℚ) / 1000000)

/-- One decimal digit, as a regular expression. -/
def digitRE : RegularExpression Char :=
  RegularExpression.char '0' + RegularExpression.char '1' + RegularExpression.char '2' +
  RegularExpression.char '3' + RegularExpression.char '4' + RegularExpression.char '5' +
  RegularExpression.char '6' + RegularExpression.char '7' + RegularExpression.char '8' +
  RegularExpression.char '9'

/-- The regular expression `^-?\d+\.\d{6} \] \}\n$` of the specification. -/
def lineRE : RegularExpression Char :=
  (1 + RegularExpression.char '-') * (digitRE * RegularExpression.star digitRE) *
  RegularExpression.char '.' * digitRE ^ 6 *
  (RegularExpression.char ' ' * RegularExpression.char ']' * RegularExpression.char ' ' *
   RegularExpression.char '}' * RegularExpression.char '\n')

end StartupRunner


namespace StartupRunner

/-! ## The program, step by step -/

theorem formatChars_main (v : Double) :
    formatChars "%f ] \x7d\n".data [v] = fmt_f v ++ suffix := by
  rfl

/-- The effect of `main` on an arbitrary state, in closed form. -/
theorem main_eq (env : Env) (s : State) :
    main env s =
      (0, { clockCalls := s.clockCalls + 1,
            out := s.out ++ (fmt_f (env.clock s.clockCalls) ++ suffix),
            err := s.err,
            trace := s.trace ++ [Event.clock (env.clock s.clockCalls)] ++
              [Event.write Stream.stdout (fmt_f (env.clock s.clockCalls) ++ suffix)] }) := by
  rfl

theorem mainWith_eq_main (init : Double) (env : Env) (s : State) :
    mainWith init env s = main env s := by
  simp only [main, mainWith]

/-- A whole execution, in closed form. -/
theorem run_eq (env : Env) :
    run env =
      (0, { clockCalls := 1,
            out := fmt_f (env.clock 0) ++ suffix,
            err := [],
            trace := [Event.clock (env.clock 0),
              Event.write Stream.stdout (fmt_f (env.clock 0) ++ suffix)] }) := by
  simp [run, main_eq, State.init]

/-! ## Decimal digits -/

theorem digitChar_isDigit : ∀ d : Nat, d < 10 → (Nat.digitChar d).isDigit = true := by
  decide

theorem digitVal_digitChar : ∀ d : Nat, d < 10 → digitVal (Nat.digitChar d) = d := by
  decide

theorem isDigit_ne_newline (c : Char) (h : c.isDigit = true) : c ≠ '\n' := by
  rintro rfl
  exact absurd h (by decide)

theorem isDigit_ne_minus (c : Char) (h : c.isDigit = true) : c ≠ '-' := by
  rintro rfl
  exact absurd h (by decide)

theorem decDigitsAux_eq (n : Nat) :
    ∀ (fuel : Nat) (acc : List Char), n < fuel → decDigitsAux fuel n acc = decDigits n ++ acc := by
  induction n using Nat.strong_induction_on with
  | _ n ih =>
    intro fuel acc hlt
    obtain ⟨f, rfl⟩ : ∃ f, fuel = f + 1 := ⟨fuel - 1, by omega⟩
    by_cases h0 : n / 10 = 0
    · simp [decDigits, decDigitsAux, h0]
    · have hn : n / 10 < n := by omega
      have hfn : ∃ k, n = k + 1 := ⟨n - 1, by omega⟩
      obtain ⟨k, hk⟩ := hfn
      have e1 : decDigitsAux (f + 1) n acc
          = decDigitsAux f (n / 10) (Nat.digitChar (n % 10) :: acc) := by
        simp [decDigitsAux, h0]
      have e2 : decDigits n = decDigitsAux n (n / 10) [Nat.digitChar (n % 10)] := by
        simp [decDigits, decDigitsAux, h0]
      rw [e1, e2, ih (n / 10) hn f _ (by omega), ih (n / 10) hn n _ hn]
      simp

theorem decDigits_small (n : Nat) (h : n < 10) : decDigits n = [Nat.digitChar n] := by
  have h0 : n / 10 = 0 := by omega
  have h1 : n % 10 = n := by omega
  simp [decDigits, decDigitsAux, h0, h1]

theorem decDigits_step (n : Nat) (h : 10 ≤ n) :
    decDigits n = decDigits (n / 10) ++ [Nat.digitChar (n % 10)] := by
  have h0 : ¬ n / 10 = 0 := by omega
  have e2 : decDigits n = decDigitsAux n (n / 10) [Nat.digitChar (n % 10)] := by
    simp [decDigits, decDigitsAux, h0]
  rw [e2, decDigitsAux_eq (n / 10) n _ (by omega)]

theorem decDigits_isDigit (n : Nat) : ∀ c ∈ decDigits n, c.isDigit = true := by
  induction n using Nat.strong_induction_on with
  | _ n ih =>
    by_cases h : n < 10
    · rw [decDigits_small n h]
      intro c hc
      rw [List.mem_singleton] at hc
      subst hc
      exact digitChar_isDigit n h
    · rw [decDigits_step n (by omega)]
      intro c hc
      rcases List.mem_append.1 hc with hc | hc
      · exact ih (n / 10) (by omega) c hc
      · rw [List.mem_singleton] at hc
        subst hc
        exact digitChar_isDigit _ (Nat.mod_lt _ (by decide))

theorem decDigits_ne_nil (n : Nat) : decDigits n ≠ [] := by
  by_cases h : n < 10
  · rw [decDigits_small n h]
    exact List.cons_ne_nil _ _
  · rw [decDigits_step n (by omega)]
    simp

theorem readNat_snoc (l : List Char) (c : Char) :
    readNat (l ++ [c]) = 10 * readNat l + digitVal c := by
  simp [readNat, List.foldl_append]

theorem readNat_decDigits (n : Nat) : readNat (decDigits n) = n := by
  induction n using Nat.strong_induction_on with
  | _ n ih =>
    by_cases h : n < 10
    · rw [decDigits_small n h]
      simp [readNat, digitVal_digitChar n h]
    · rw [decDigits_step n (by omega), readNat_snoc, ih (n / 10) (by omega),
        digitVal_digitChar _ (Nat.mod_lt _ (by decide))]
      omega

theorem fracDigits_length (f : Nat) : (fracDigits f).length = 6 := rfl

theorem fracDigits_isDigit (f : Nat) : ∀ c ∈ fracDigits f, c.isDigit = true := by
  intro c hc
  simp only [fracDigits, List.mem_cons, List.mem_singleton, List.not_mem_nil, or_false] at hc
  rcases hc with rfl | rfl | rfl | rfl | rfl | rfl <;>
    exact digitChar_isDigit _ (Nat.mod_lt _ (by decide))

theorem readNat_fracDigits (f : Nat) (h : f < 1000000) : readNat (fracDigits f) = f := by
  simp only [readNat, fracDigits, List.foldl_cons, List.foldl_nil]
  rw [digitVal_digitChar _ (Nat.mod_lt _ (by decide)),
    digitVal_digitChar _ (Nat.mod_lt _ (by decide)),
    digitVal_digitChar _ (Nat.mod_lt _ (by decide)),
    digitVal_digitChar _ (Nat.mod_lt _ (by decide)),
    digitVal_digitChar _ (Nat.mod_lt _ (by decide)),
    digitVal_digitChar _ (Nat.mod_lt _ (by decide))]
  omega

/-! ## Reading back what `%f` wrote -/

theorem readUnsigned_decimal (a f : Nat) (hf : f < 1000000) :
    readUnsigned (decDigits a ++ '.' :: fracDigits f)
      = some (Printed.num ((a : ℚ) + (f : ℚ) / 1000000)) := by
  have hlen : decDigits a ++ '.' :: fracDigits f ≠ ['i', 'n', 'f'] := by
    intro h
    have := congrArg List.length h
    simp [fracDigits_length] at this
  have hdot : ¬ (Char.isDigit '.' = true) := by decide
  have htake : (decDigits a ++ '.' :: fracDigits f).takeWhile Char.isDigit = decDigits a := by
    rw [List.takeWhile_append_of_pos (decDigits_isDigit a), List.takeWhile_cons_of_neg hdot,
      List.append_nil]
  have hdrop : (decDigits a ++ '.' :: fracDigits f).dropWhile Char.isDigit
      = '.' :: fracDigits f := by
    rw [List.dropWhile_append_of_pos (decDigits_isDigit a), List.dropWhile_cons_of_neg hdot]
  have hall : (fracDigits f).all Char.isDigit = true :=
    List.all_eq_true.2 (fracDigits_isDigit f)
  have hne : fracDigits f ≠ [] := by simp [fracDigits]
  unfold readUnsigned
  rw [if_neg hlen]
  simp only [htake, hdrop]
  rw [if_pos ⟨decDigits_ne_nil a, hne, hall⟩, readNat_decDigits, readNat_fracDigits f hf,
    fracDigits_length]
  norm_num

theorem readSigned_of_head (c : Char) (cs : List Char) (h : c ≠ '-') :
    readSigned (c :: cs) = readUnsigned (c :: cs) := by
  unfold readSigned
  split
  · rename_i heq
    exact absurd (List.cons.inj heq).1 h
  · rfl

theorem readSigned_decDigits (a : Nat) (rest : List Char) :
    readSigned (decDigits a ++ rest) = readUnsigned (decDigits a ++ rest) := by
  rcases hd : decDigits a with _ | ⟨c, cs⟩
  · exact absurd hd (decDigits_ne_nil a)
  · have hc : c.isDigit = true := decDigits_isDigit a c (by rw [hd]; exact List.mem_cons_self _ _)
    exact readSigned_of_head c (cs ++ rest) (isDigit_ne_minus c hc)

theorem readLine_append_suffix (b : List Char) : readLine (b ++ suffix) = readSigned b := by
  unfold readLine
  have hl : (b ++ suffix).length - suffix.length = b.length := by simp
  rw [hl, List.drop_left, List.take_left, if_pos rfl]

theorem micros_split (m : Nat) :
    ((m / 1000000 : Nat) : ℚ) + ((m % 1000000 : Nat) : ℚ) / 1000000 = (m : ℚ) / 1000000 := by
  have h : (m : ℚ) = ((1000000 * (m / 1000000) + m % 1000000 : Nat) : ℚ) := by
    rw [Nat.div_add_mod]
  rw [h]
  push_cast
  field_simp
  ring

theorem isInf_of_not_finite (d : Double) (hn : d.isNaN = false) (hf : d.isFinite = false) :
    d.isInf = true := by
  have h := d.expo.isLt
  simp only [Double.isNaN, Double.isInf, Double.isFinite, Bool.and_eq_false_iff,
    Bool.and_eq_true, beq_iff_eq, bne_iff_ne, decide_eq_false_iff_not, beq_eq_false_iff_ne,
    bne_eq_false_iff_eq, ne_eq] at *
  omega

theorem readSigned_fmt_f (d : Double) (hn : d.isNaN = false) :
    readSigned (fmt_f d) = some d.shown := by
  unfold fmt_f Double.shown
  rw [hn]
  rcases hs : d.sign <;> rcases hi : d.isInf
  · simp only [Bool.false_eq_true, if_false, List.nil_append]
    rw [readSigned_decDigits, readUnsigned_decimal _ _ (Nat.mod_lt _ (by decide)), micros_split]
  · simp [readSigned, readUnsigned]
  · simp only [Bool.false_eq_true, if_false, if_true, List.singleton_append]
    simp only [readSigned]
    rw [readUnsigned_decimal _ _ (Nat.mod_lt _ (by decide)), micros_split]
    rfl
  · simp [readSigned, readUnsigned, Printed.neg]

/-- Unless the clock returned a NaN, the output line reads back as the rounded clock value. -/
theorem readLine_run (env : Env) (hn : (env.clock 0).isNaN = false) :
    readLine (run env).2.out = some (env.clock 0).shown := by
  rw [run_eq]
  exact (readLine_append_suffix _).trans (readSigned_fmt_f _ hn)

/-! ## Rounding preserves the order -/

theorem roundHalfEven_mono (den n1 n2 : Nat) (hd : 0 < den) (h : n1 ≤ n2) :
    roundHalfEven n1 den ≤ roundHalfEven n2 den := by
  have hq : n1 / den ≤ n2 / den := Nat.div_le_div_right h
  have e1 := Nat.div_add_mod n1 den
  have e2 := Nat.div_add_mod n2 den
  have hr1 := Nat.mod_lt n1 hd
  have hr2 := Nat.mod_lt n2 hd
  simp only [roundHalfEven]
  rcases Nat.lt_or_ge (n1 / den) (n2 / den) with hlt | hge
  · split_ifs <;> omega
  · have heq : n1 / den = n2 / den := by omega
    rw [heq] at e1 ⊢
    split_ifs <;> omega

theorem roundHalfEven_zero (den : Nat) (hd : 0 < den) : roundHalfEven 0 den = 0 := by
  simp [roundHalfEven, hd]

theorem absRat_nonneg (d : Double) : 0 ≤ d.absRat := by
  unfold Double.absRat
  positivity

theorem scaled_le_of_absRat_le (a b : Double) (h : a.absRat ≤ b.absRat) :
    a.mant * 2 ^ a.bexp * 1000000 ≤ b.mant * 2 ^ b.bexp * 1000000 := by
  unfold Double.absRat at h
  have hpos : (0 : ℚ) < 2 ^ 1075 := by positivity
  have h2 : (a.mant : ℚ) * 2 ^ a.bexp ≤ (b.mant : ℚ) * 2 ^ b.bexp :=
    (div_le_div_iff_of_pos_right hpos).1 h
  have h3 : a.mant * 2 ^ a.bexp ≤ b.mant * 2 ^ b.bexp := by exact_mod_cast h2
  exact Nat.mul_le_mul_right _ h3

set_option exponentiation.threshold 4096 in
theorem micros_mono (a b : Double) (h : a.absRat ≤ b.absRat) : a.micros ≤ b.micros :=
  roundHalfEven_mono _ _ _ (Nat.two_pow_pos 1075) (scaled_le_of_absRat_le a b h)

set_option exponentiation.threshold 4096 in
theorem micros_eq_zero (a : Double) (h : a.absRat ≤ 0) : a.micros = 0 := by
  have h0 : a.absRat = 0 := le_antisymm h (absRat_nonneg a)
  unfold Double.absRat at h0
  have hpos : (2 : ℚ) ^ 1075 ≠ 0 := by positivity
  have hpos2 : (2 : ℚ) ^ a.bexp ≠ 0 := by positivity
  have hm : (a.mant : ℚ) = 0 := by
    rcases div_eq_zero_iff.1 h0 with h1 | h1
    · rcases mul_eq_zero.1 h1 with h2 | h2
      · exact h2
      · exact absurd h2 hpos2
    · exact absurd h1 hpos
  have hm2 : a.mant = 0 := by exact_mod_cast hm
  unfold Double.micros
  rw [hm2, Nat.zero_mul, Nat.zero_mul]
  exact roundHalfEven_zero _ (Nat.two_pow_pos 1075)

theorem isInf_of_finite (d : Double) (h : d.isFinite = true) : d.isInf = false := by
  simp only [Double.isInf, Double.isFinite, decide_eq_true_eq, Bool.and_eq_false_iff,
    beq_eq_false_iff_ne, ne_eq] at *
  omega

theorem shown_mono_finite (a b : Double) (ha : a.isFinite = true) (hb : b.isFinite = true)
    (h : a.toRat ≤ b.toRat) : Printed.le a.shown b.shown := by
  unfold Double.shown
  rw [isInf_of_finite a ha, isInf_of_finite b hb]
  unfold Double.toRat at h
  have hna := absRat_nonneg a
  have hnb := absRat_nonneg b
  have hma : (0 : ℚ) ≤ (a.micros : ℚ) / 1000000 := div_nonneg (Nat.cast_nonneg _) (by norm_num)
  have hmb : (0 : ℚ) ≤ (b.micros : ℚ) / 1000000 := div_nonneg (Nat.cast_nonneg _) (by norm_num)
  revert h
  rcases a.sign <;> rcases b.sign <;> intro h <;>
    simp only [Bool.false_eq_true, if_false, if_true] at h ⊢ <;>
    show (_ : ℚ) ≤ _
  · have hm : a.micros ≤ b.micros := micros_mono a b h
    have hc : (a.micros : ℚ) ≤ (b.micros : ℚ) := by exact_mod_cast hm
    exact div_le_div_of_nonneg_right hc (by norm_num)
  · have h1 : a.micros = 0 := micros_eq_zero a (by linarith)
    have h2 : b.micros = 0 := micros_eq_zero b (by linarith)
    rw [h1, h2]
    norm_num
  · linarith
  · have hm : b.micros ≤ a.micros := micros_mono b a (by linarith)
    have hc : (b.micros : ℚ) ≤ (a.micros : ℚ) := by exact_mod_cast hm
    have := div_le_div_of_nonneg_right hc (show (0 : ℚ) ≤ 1000000 by norm_num)
    linarith

theorem Printed.le_posInf (p : Printed) : Printed.le p Printed.posInf := by
  cases p <;> simp [Printed.le]

/-- Rounding to six decimals preserves the order of doubles. -/
theorem shown_mono (a b : Double) (h : Double.le a b) : Printed.le a.shown b.shown := by
  obtain ⟨_, _, h | h | h⟩ := h
  · unfold Double.shown
    rw [h.1, h.2]
    simp [Printed.le]
  · unfold Double.shown
    rw [h.1, h.2]
    exact Printed.le_posInf _
  · exact shown_mono_finite a b h.1 h.2.1 h.2.2

/-! ## The shape of the output line -/

theorem digitChar_rmatch : ∀ d : Nat, d < 10 → digitRE.rmatch [Nat.digitChar d] = true := by
  decide

theorem digit_mem (d : Nat) (h : d < 10) : [Nat.digitChar d] ∈ digitRE.matches' :=
  (RegularExpression.rmatch_iff_matches' _ _).1 (digitChar_rmatch d h)

theorem decDigits_mem (n : Nat) : decDigits n ∈ (digitRE * RegularExpression.star digitRE).matches' := by
  induction n using Nat.strong_induction_on with
  | _ n ih =>
    rw [RegularExpression.matches'_mul, RegularExpression.matches'_star]
    by_cases h : n < 10
    · rw [decDigits_small n h]
      exact Language.append_mem_mul (digit_mem n h) (Language.nil_mem_kstar _)
    · rw [decDigits_step n (by omega)]
      have h1 := ih (n / 10) (by omega)
      rw [RegularExpression.matches'_mul, RegularExpression.matches'_star] at h1
      obtain ⟨a, ha, b, hb, hab⟩ := Language.mem_mul.1 h1
      rw [← hab, List.append_assoc]
      refine Language.append_mem_mul ha ?_
      obtain ⟨L, rfl, hL⟩ := Language.mem_kstar.1 hb
      have hj : (L ++ [[Nat.digitChar (n % 10)]]).flatten
          = L.flatten ++ [Nat.digitChar (n % 10)] := by simp
      rw [← hj]
      refine Language.join_mem_kstar ?_
      intro y hy
      rcases List.mem_append.1 hy with hy | hy
      · exact hL y hy
      · rw [List.mem_singleton] at hy
        subst hy
        exact digit_mem _ (Nat.mod_lt _ (by decide))

theorem fracDigits_mem (f : Nat) : fracDigits f ∈ (digitRE ^ 6).matches' := by
  have hd : ∀ k : Nat, [Nat.digitChar (k % 10)] ∈ digitRE.matches' :=
    fun k => digit_mem _ (Nat.mod_lt _ (by decide))
  rw [RegularExpression.matches'_pow]
  simp only [pow_succ, pow_zero, one_mul]
  exact Language.append_mem_mul (Language.append_mem_mul (Language.append_mem_mul
    (Language.append_mem_mul (Language.append_mem_mul (hd _) (hd _)) (hd _)) (hd _)) (hd _)) (hd _)

theorem suffix_mem :
    suffix ∈ (RegularExpression.char ' ' * RegularExpression.char ']' *
      RegularExpression.char ' ' * RegularExpression.char '}' *
      RegularExpression.char '\n').matches' :=
  (RegularExpression.rmatch_iff_matches' _ _).1 (by decide)

theorem sign_mem (b : Bool) :
    (if b then ['-'] else []) ∈ (1 + RegularExpression.char '-').matches' := by
  cases b
  · exact (RegularExpression.rmatch_iff_matches' _ _).1 (by decide)
  · exact (RegularExpression.rmatch_iff_matches' _ _).1 (by decide)

theorem lineRE_fmt_f (d : Double) (h : d.isFinite = true) :
    lineRE.rmatch (fmt_f d ++ suffix) = true := by
  have hn : d.isNaN = false := by
    simp only [Double.isNaN, Double.isFinite, decide_eq_true_eq, Bool.and_eq_false_iff,
      beq_eq_false_iff_ne, ne_eq] at *
    omega
  have e : fmt_f d ++ suffix =
      (((if d.sign then ['-'] else []) ++ decDigits (d.micros / 1000000)) ++ ['.'] ++
        fracDigits (d.micros % 1000000)) ++ suffix := by
    unfold fmt_f
    rw [hn, isInf_of_finite d h]
    simp
  rw [e, RegularExpression.rmatch_iff_matches']
  unfold lineRE
  simp only [RegularExpression.matches'_mul]
  refine Language.append_mem_mul (Language.append_mem_mul (Language.append_mem_mul
    (Language.append_mem_mul (sign_mem _) ?_) ?_) (fracDigits_mem _)) ?_
  · have := decDigits_mem (d.micros / 1000000)
    rwa [RegularExpression.matches'_mul] at this
  · exact (RegularExpression.rmatch_iff_matches' _ _).1 (by decide)
  · have := suffix_mem
    simpa only [RegularExpression.matches'_mul] using this

/-! ## Remaining facts about the written text -/

theorem decDigits_no_newline (n : Nat) : '\n' ∉ decDigits n :=
  fun h => isDigit_ne_newline _ (decDigits_isDigit n _ h) rfl

theorem fracDigits_no_newline (f : Nat) : '\n' ∉ fracDigits f :=
  fun h => isDigit_ne_newline _ (fracDigits_isDigit f _ h) rfl

theorem fmt_f_no_newline (d : Double) : '\n' ∉ fmt_f d := by
  unfold fmt_f
  intro h
  rcases List.mem_append.1 h with h | h
  · split at h
    · exact absurd h (by decide)
    · exact absurd h (by decide)
  · split at h
    · exact absurd h (by decide)
    · split at h
      · exact absurd h (by decide)
      · rcases List.mem_append.1 h with h | h
        · exact decDigits_no_newline _ h
        · rcases List.mem_cons.1 h with h | h
          · exact absurd h (by decide)
          · exact fracDigits_no_newline _ h

theorem fmt_f_head_of_sign (d : Double) (h : d.sign = true) : (fmt_f d).head? = some '-' := by
  unfold fmt_f
  rw [h]
  rfl

set_option exponentiation.threshold 4096 in
theorem micros_negOne : Double.negOne.micros = 1000000 := by decide

set_option exponentiation.threshold 4096 in
theorem fmt_f_negOne : fmt_f Double.negOne = "-1.000000".data := by decide

set_option exponentiation.threshold 4096 in
theorem fmt_f_d0_000123 : fmt_f Double.d0_000123 = "0.000123".data := by decide

theorem shown_negOne : Double.negOne.shown = Printed.num (-1) := by
  have hi : Double.negOne.isInf = false := by decide
  have hs : Double.negOne.sign = true := rfl
  unfold Double.shown
  rw [micros_negOne, hi, hs]
  norm_num

set_option exponentiation.threshold 4096 in
theorem shown_zero : Double.zero.shown = Printed.num 0 := by
  have h : Double.zero.micros = 0 := by
    unfold Double.micros
    have : Double.zero.mant = 0 := by decide
    rw [this, Nat.zero_mul, Nat.zero_mul]
    exact roundHalfEven_zero _ (Nat.two_pow_pos 1075)
  have hi : Double.zero.isInf = false := by decide
  have hs : Double.zero.sign = false := rfl
  unfold Double.shown
  rw [h, hi, hs]
  norm_num

theorem isNaN_of_not_finite_not_inf (d : Double) (hf : d.isFinite = false)
    (hi : d.isInf = false) : d.isNaN = true := by
  have h := d.expo.isLt
  simp only [Double.isNaN, Double.isInf, Double.isFinite, Bool.and_eq_false_iff,
    Bool.and_eq_true, beq_iff_eq, bne_iff_ne, decide_eq_false_iff_not, beq_eq_false_iff_ne,
    ne_eq] at *
  omega

theorem isNaN_isInf_exclusive (d : Double) (hn : d.isNaN = true) : d.isInf = false := by
  simp only [Double.isNaN, Double.isInf, Bool.and_eq_false_iff,
    Bool.and_eq_true, beq_iff_eq, bne_iff_ne, beq_eq_false_iff_ne, ne_eq] at *
  omega

/-- Outside the range of the clock (an infinity or a NaN) the `%f` rendering is `[-]inf` or
`[-]nan`, which the regular expression does not match. -/
theorem lineRE_not_finite (d : Double) (h : d.isFinite = false) :
    lineRE.rmatch (fmt_f d ++ suffix) = false := by
  unfold fmt_f
  rcases hi : d.isInf
  · have hn := isNaN_of_not_finite_not_inf d h hi
    rw [hn]
    rcases d.sign
    · show lineRE.rmatch (['n', 'a', 'n'] ++ suffix) = false
      decide
    · show lineRE.rmatch (['-', 'n', 'a', 'n'] ++ suffix) = false
      decide
  · have hn : d.isNaN = false := by
      rcases hn : d.isNaN
      · rfl
      · rw [isNaN_isInf_exclusive d hn] at hi
        exact absurd hi (by decide)
    rw [hn]
    rcases d.sign
    · show lineRE.rmatch (['i', 'n', 'f'] ++ suffix) = false
      decide
    · show lineRE.rmatch (['-', 'i', 'n', 'f'] ++ suffix) = false
      decide

/-! ## The claims -/

/-- Claim C1: for every value the clock returns, the whole of standard output is the `%f`
rendering of that value immediately followed by the five characters `" ] }\n"`, with nothing
before or after it; when the clock returns the double `0.000123`, standard output is
`"0.000123 ] }\n"`. -/
theorem stdout_is_rendering_then_suffix :
    (∀ env : Env, (run env).2.out = fmt_f (env.clock 0) ++ [' ', ']', ' ', '}', '\n']) ∧
    (∀ (argv environ : List String),
      (run ⟨argv, environ, fun _ => Double.d0_000123⟩).2.out = "0.000123 ] \x7d\n".data) := by
  refine ⟨fun env => ?_, fun argv environ => ?_⟩
  · rw [run_eq]
    rfl
  · rw [run_eq]
    show fmt_f Double.d0_000123 ++ suffix = _
    rw [fmt_f_d0_000123]
    rfl

/-- Claim C2: `main` returns exit status 0 (`EXIT_SUCCESS`) whatever the clock returns and
whatever state it is entered in; no execution returns a non-zero status. -/
theorem exit_status_always_zero :
    (∀ (env : Env) (s : State), (main env s).1 = 0) ∧ (∀ env : Env, (run env).1 = 0) := by
  refine ⟨fun env s => ?_, fun env => ?_⟩
  · rw [main_eq]
  · rw [run_eq]

/-- Claim C3: whenever the clock returns a number (elapsed seconds or a negative sentinel,
that is, a finite double), the complete standard output matches the regular expression
`^-?\d+\.\d{6} \] \}\n$`: an optional minus sign, one or more digits, a dot, exactly six
digits, then `" ] }"` and a newline. -/
theorem stdout_matches_regex (env : Env) (h : (env.clock 0).isFinite = true) :
    lineRE.rmatch (run env).2.out = true := by
  rw [run_eq]
  exact lineRE_fmt_f _ h

/-- Claim C4, as stated, fails: when the clock returns the sentinel `-1`, standard output is
`"-1.000000 ] }\n"` and the number written is `-1`, which is negative. -/
theorem sentinel_is_printed :
    (run ⟨[], [], fun _ => Double.negOne⟩).2.out = "-1.000000 ] \x7d\n".data ∧
    readLine (run ⟨[], [], fun _ => Double.negOne⟩).2.out = some (Printed.num (-1)) ∧
    ¬ Printed.le (Printed.num 0) (Printed.num (-1)) := by
  refine ⟨?_, ?_, ?_⟩
  · rw [run_eq]
    show fmt_f Double.negOne ++ suffix = _
    rw [fmt_f_negOne]
    rfl
  · rw [readLine_run _ (by decide)]
    exact congrArg some shown_negOne
  · show ¬ ((0 : ℚ) ≤ -1)
    norm_num

/-- Claim C4, amended: whenever the value the clock returned is non-negative (`0 <= v` as C
compares doubles), the value that can be read back from standard output is non-negative. -/
theorem printed_value_nonneg_of_clock_nonneg (env : Env)
    (h : Double.le Double.zero (env.clock 0)) :
    ∃ p : Printed, readLine (run env).2.out = some p ∧ Printed.le (Printed.num 0) p := by
  refine ⟨(env.clock 0).shown, readLine_run env h.2.1, ?_⟩
  have := shown_mono _ _ h
  rwa [shown_zero] at this

/-- Claim C5: for every clock value, standard output holds exactly one newline character,
which is the last character written, and nothing is written to standard error. -/
theorem exactly_one_line_and_no_stderr (env : Env) :
    (run env).2.out.count '\n' = 1 ∧ (run env).2.out.getLast? = some '\n' ∧
      (run env).2.err = [] := by
  rw [run_eq]
  refine ⟨?_, ?_, rfl⟩
  · show (fmt_f (env.clock 0) ++ suffix).count '\n' = 1
    rw [List.count_append, List.count_eq_zero_of_not_mem (fmt_f_no_newline _)]
    decide
  · show (fmt_f (env.clock 0) ++ suffix).getLast? = some '\n'
    rw [List.getLast?_append]
    rfl

/-- Claim C6: if the clock reading of one run is at most the clock reading of another
(`t1 <= t2` as C compares doubles), then a value can be read back from the output of each
run and the value printed for `t1` is at most the value printed for `t2`. -/
theorem printed_values_keep_order (env1 env2 : Env)
    (h : Double.le (env1.clock 0) (env2.clock 0)) :
    ∃ p1 p2 : Printed, readLine (run env1).2.out = some p1 ∧
      readLine (run env2).2.out = some p2 ∧ Printed.le p1 p2 :=
  ⟨(env1.clock 0).shown, (env2.clock 0).shown, readLine_run env1 h.1, readLine_run env2 h.2.1,
    shown_mono _ _ h⟩

/-- Claim C7: for every negative clock value `v` the program still writes the formatted line
for `v` (it starts with a minus sign; for `v = -1` it is `"-1.000000 ] }\n"`), writes nothing
to standard error, performs no event other than the clock reading and that one write, and
returns 0. -/
theorem negative_value_is_not_checked (env : Env) (h : (env.clock 0).isNegative) :
    (run env).2.out = fmt_f (env.clock 0) ++ suffix ∧
    (run env).2.out.head? = some '-' ∧
    (env.clock 0 = Double.negOne → (run env).2.out = "-1.000000 ] \x7d\n".data) ∧
    (run env).2.err = [] ∧
    (run env).2.trace.length = 2 ∧
    (run env).1 = 0 := by
  rw [run_eq]
  refine ⟨rfl, ?_, ?_, rfl, rfl, rfl⟩
  · show (fmt_f (env.clock 0) ++ suffix).head? = some '-'
    rw [List.head?_append, fmt_f_head_of_sign _ h.2.1]
    rfl
  · intro hv
    show fmt_f (env.clock 0) ++ suffix = _
    rw [hv, fmt_f_negOne]
    rfl

/-- Claim C8: standard output and exit status depend on the clock value alone: two executions
in which the clock returns the same value, whatever their arguments and environment
variables, write the same text to both streams and return the same status. -/
theorem output_depends_on_clock_only (env1 env2 : Env) (h : env1.clock 0 = env2.clock 0) :
    (run env1).2.out = (run env2).2.out ∧ (run env1).2.err = (run env2).2.err ∧
      (run env1).1 = (run env2).1 := by
  rw [run_eq, run_eq, h]
  exact ⟨rfl, rfl, rfl⟩

/-- Claim C9: the program reads the clock exactly once, then writes once to standard output,
and what it writes is the rendering of the value that reading returned; the initial value of
`start_time` has no effect: with any other initialiser the execution is the same. -/
theorem clock_read_once_then_printed (env : Env) :
    (run env).2.trace =
      [Event.clock (env.clock 0),
       Event.write Stream.stdout (fmt_f (env.clock 0) ++ suffix)] ∧
    (run env).2.clockCalls = 1 ∧
    (∀ init : Double, runWith init env = run env) := by
  refine ⟨?_, ?_, fun init => ?_⟩
  · rw [run_eq]
  · rw [run_eq]
  · exact mainWith_eq_main init env State.init

/-! ## Concrete executions -/

theorem toRat_zero : Double.zero.toRat = 0 := by
  have hm : Double.zero.mant = 0 := by decide
  have hs : Double.zero.sign = false := rfl
  simp only [Double.toRat, Double.absRat, hm, hs]
  norm_num

theorem toRat_d0_0078125 : Double.d0_0078125.toRat = 1 / 128 := by
  have hm : Double.d0_0078125.mant = 4503599627370496 := by decide
  have he : Double.d0_0078125.bexp = 1016 := by decide
  have hs : Double.d0_0078125.sign = false := rfl
  simp only [Double.toRat, Double.absRat, hm, he, hs]
  norm_num

theorem toRat_negOne : Double.negOne.toRat = -1 := by
  have hm : Double.negOne.mant = 4503599627370496 := by decide
  have he : Double.negOne.bexp = 1023 := by decide
  have hs : Double.negOne.sign = true := rfl
  simp only [Double.toRat, Double.absRat, hm, he, hs]
  norm_num

theorem toRat_d0_000123 :
    Double.d0_000123.toRat = 4537899042132550 / 36893488147419103232 := by
  have hm : Double.d0_000123.mant = 4537899042132550 := by decide
  have he : Double.d0_000123.bexp = 1010 := by decide
  have hs : Double.d0_000123.sign = false := rfl
  simp only [Double.toRat, Double.absRat, hm, he, hs]
  norm_num

theorem toRat_d0_000123_pred :
    Double.d0_000123_pred.toRat = 4537899042132549 / 36893488147419103232 := by
  have hm : Double.d0_000123_pred.mant = 4537899042132549 := by decide
  have he : Double.d0_000123_pred.bexp = 1010 := by decide
  have hs : Double.d0_000123_pred.sign = false := rfl
  simp only [Double.toRat, Double.absRat, hm, he, hs]
  norm_num

/-- The decimal `0.000123` lies strictly between `d0_000123` and the double just below it,
and nearer to `d0_000123`: that double is what the literal `0.000123` denotes. -/
theorem d0_000123_nearest :
    Double.d0_000123_pred.toRat < 123 / 1000000 ∧
    (123 / 1000000 : ℚ) < Double.d0_000123.toRat ∧
    Double.d0_000123.toRat - 123 / 1000000
      < 123 / 1000000 - Double.d0_000123_pred.toRat := by
  rw [toRat_d0_000123, toRat_d0_000123_pred]
  norm_num

theorem zero_le_d0_000123 : Double.le Double.zero Double.d0_000123 := by
  refine ⟨by decide, by decide, Or.inr (Or.inr ⟨by decide, by decide, ?_⟩)⟩
  rw [toRat_zero, toRat_d0_000123]
  norm_num

theorem d0_000123_le_d0_0078125 : Double.le Double.d0_000123 Double.d0_0078125 := by
  refine ⟨by decide, by decide, Or.inr (Or.inr ⟨by decide, by decide, ?_⟩)⟩
  rw [toRat_d0_0078125, toRat_d0_000123]
  norm_num

/-- The sentinel `-1` is a finite double, and the line written for it matches the regular
expression. -/
theorem stdout_matches_regex_witness :
    Double.negOne.isFinite = true ∧
    lineRE.rmatch (run ⟨[], [], fun _ => Double.negOne⟩).2.out = true :=
  ⟨by decide, stdout_matches_regex ⟨[], [], fun _ => Double.negOne⟩ (by decide)⟩

/-- The clock value `0.000123` is non-negative and the line written for it reads back as a
non-negative value. -/
theorem printed_value_nonneg_of_clock_nonneg_witness :
    Double.le Double.zero Double.d0_000123 ∧
    ∃ p : Printed, readLine (run ⟨[], [], fun _ => Double.d0_000123⟩).2.out = some p ∧
      Printed.le (Printed.num 0) p :=
  ⟨zero_le_d0_000123,
    printed_value_nonneg_of_clock_nonneg ⟨[], [], fun _ => Double.d0_000123⟩ zero_le_d0_000123⟩

/-- The readings `0.000123 <= 0.0078125` are printed as values in the same order. -/
theorem printed_values_keep_order_witness :
    Double.le Double.d0_000123 Double.d0_0078125 ∧
    ∃ p1 p2 : Printed,
      readLine (run ⟨[], [], fun _ => Double.d0_000123⟩).2.out = some p1 ∧
      readLine (run ⟨[], [], fun _ => Double.d0_0078125⟩).2.out = some p2 ∧ Printed.le p1 p2 :=
  ⟨d0_000123_le_d0_0078125,
    printed_values_keep_order ⟨[], [], fun _ => Double.d0_000123⟩
      ⟨[], [], fun _ => Double.d0_0078125⟩ d0_000123_le_d0_0078125⟩

/-- The sentinel `-1` is negative, and it is printed, without a diagnostic, with status 0. -/
theorem negative_value_is_not_checked_witness :
    Double.negOne.isNegative ∧
    (run ⟨[], [], fun _ => Double.negOne⟩).2.out = "-1.000000 ] \x7d\n".data ∧
    (run ⟨[], [], fun _ => Double.negOne⟩).2.err = [] ∧
    (run ⟨[], [], fun _ => Double.negOne⟩).1 = 0 :=
  have hneg : Double.negOne.isNegative := ⟨by decide, rfl, Or.inr (by decide)⟩
  have h := negative_value_is_not_checked ⟨[], [], fun _ => Double.negOne⟩ hneg
  ⟨hneg, h.2.2.1 rfl, h.2.2.2.1, h.2.2.2.2.2⟩

/-- Two executions with different arguments, environment variables and later clock readings,
but the same first reading, are indistinguishable. -/
theorem output_depends_on_clock_only_witness :
    (run ⟨["-v"], ["HOME=/root"], fun _ => Double.negOne⟩).2.out
        = (run ⟨[], [], fun n => if n = 0 then Double.negOne else Double.qnan⟩).2.out ∧
    (run ⟨["-v"], ["HOME=/root"], fun _ => Double.negOne⟩).2.err
        = (run ⟨[], [], fun n => if n = 0 then Double.negOne else Double.qnan⟩).2.err ∧
    (run ⟨["-v"], ["HOME=/root"], fun _ => Double.negOne⟩).1
        = (run ⟨[], [], fun n => if n = 0 then Double.negOne else Double.qnan⟩).1 :=
  output_depends_on_clock_only ⟨["-v"], ["HOME=/root"], fun _ => Double.negOne⟩
    ⟨[], [], fun n => if n = 0 then Double.negOne else Double.qnan⟩ rfl

end StartupRunner
